import Mathlib

/-!
Verification of the chunking engine in `app/backend/prepdocslib/textsplitter.py`.

Texts are modelled as `List Char` (Python `str`), indices and lengths as `Nat`,
Python's `-1` sentinels as `Int`.  The external token counter (`tiktoken`'s
`len(bpe.encode(text))`) is an opaque parameter `ct : List Char → Nat`, and the
external `tabulate` renderer is an opaque parameter of the Excel splitter.
Python's `int(len(text) * (10 / 100))` equals `len // 10` for attainable
lengths and is modelled as `Nat` division by 10; `int(1000 * 10 / 100)` is the
constant 100.  Generators are modelled as the lists of their yields; the
recursive token splitter, whose Python recursion is not structurally
decreasing, is modelled with explicit fuel together with a completion flag, so
that the fragments yielded before a diverging call are still observed.
-/

abbrev Chars := List Char

/-- `Page` record from `page.py` (page number, offset in the concatenated
stream, raw text), as used by the text splitters. -/
structure Page where
  page_num : Nat
  offset : Nat
  text : Chars
deriving DecidableEq, Repr

/-- `SplitPage` output record (page number, chunk text). -/
structure SplitPage where
  page_num : Nat
  text : Chars
deriving DecidableEq, Repr

/-- `STANDARD_SENTENCE_ENDINGS + CJK_SENTENCE_ENDINGS`. -/
def sentenceEndings : Chars :=
  ['.', '!', '?', '。', '！', '？', '‼', '⁇', '⁈', '⁉']

/-- `STANDARD_WORD_BREAKS + CJK_WORD_BREAKS`. -/
def wordBreaks : Chars :=
  [',', ';', ':', ' ', '(', ')', '[', ']', '\x7b', '\x7d', '\t', '\n',
   '、', '，', '；', '：', '（', '）', '【', '】', '「', '」', '『', '』',
   '〔', '〕', '〈', '〉', '《', '》', '〖', '〗', '〘', '〙', '〚', '〛',
   '〝', '〞', '〟', '〰', '–', '—', '‘', '’', '‚', '‛', '“', '”', '„',
   '‟', '‹', '›']

/-- Characters removed by Python's default `str.strip()` (ASCII whitespace;
the inputs reaching the splitters are ordinary text). -/
def pyWhitespace : Chars := [' ', '\t', '\n', '\r', '\x0b', '\x0c']

/-- Python `s.strip()`. -/
def pyStrip (s : Chars) : Chars :=
  ((s.dropWhile (fun c => decide (c ∈ pyWhitespace))).reverse.dropWhile
    (fun c => decide (c ∈ pyWhitespace))).reverse

/-- Midpoint `int(len(text) // 2)` where the spiral search begins. -/
def spiralStart (n : Nat) : Nat := n / 2

/-- Outer-third boundary `int(len(text) // 3)` confining the spiral search. -/
def spiralBoundary (n : Nat) : Nat := n / 3

/-- The spiral search loop of `split_page_by_max_tokens` (lines 116-124):
while `start - pos > boundary`, check `text[start - pos]`, then
`text[start + pos]`, for a sentence ending; `-1` if the loop ends. -/
def spiralFindAux (text : Chars) (start boundary : Nat) : Nat → Nat → Int
  | 0, _ => -1
  | fuel+1, pos =>
    if boundary + pos < start then
      if text.getD (start - pos) '\x00' ∈ sentenceEndings then
        ((start - pos : Nat) : Int)
      else if text.getD (start + pos) '\x00' ∈ sentenceEndings then
        ((start + pos : Nat) : Int)
      else spiralFindAux text start boundary fuel (pos + 1)
    else -1

/-- `split_position` computed by the spiral search of
`split_page_by_max_tokens`. -/
def spiralFind (text : Chars) : Int :=
  spiralFindAux text (spiralStart text.length) (spiralBoundary text.length)
    (text.length + 1) 0

/-- `SentenceTextSplitter.split_page_by_max_tokens`, fuelled.  Returns the
yielded fragments together with `true` iff the recursion completed within the
fuel.  `ct` models `len(bpe.encode(·))`, `maxTok` is `max_tokens_per_section`. -/
def splitByMaxTokensAux (ct : Chars → Nat) (maxTok : Nat) (page_num : Nat) :
    Nat → Chars → List SplitPage × Bool
  | 0, _ => ([], false)
  | fuel+1, text =>
    if ct text ≤ maxTok then ([⟨page_num, text⟩], true)
    else
      let sp := spiralFind text
      let firstHalf :=
        if 0 < sp then text.take (sp.toNat + 1)
        else text.take (text.length / 2 + text.length / 10)
      let secondHalf :=
        if 0 < sp then text.drop (sp.toNat + 1)
        else text.drop (text.length / 2 - text.length / 10)
      let r1 := splitByMaxTokensAux ct maxTok page_num fuel firstHalf
      let r2 := splitByMaxTokensAux ct maxTok page_num fuel secondHalf
      (r1.1 ++ r2.1, r1.2 && r2.2)

/-- `SentenceTextSplitter.split_page_by_max_tokens`: the fragments yielded with
fuel `len(text) + 1` (enough for every terminating run, since each recursive
call shortens the text whenever its length is at least 2). -/
def splitPageByMaxTokens (ct : Chars → Nat) (maxTok : Nat) (page_num : Nat)
    (text : Chars) : List SplitPage :=
  (splitByMaxTokensAux ct maxTok page_num (text.length + 1) text).1

theorem splitByMaxTokensAux_bound (ct : Chars → Nat) (maxTok : Nat)
    (page_num : Nat) :
    ∀ (fuel : Nat) (text : Chars),
      ∀ f ∈ (splitByMaxTokensAux ct maxTok page_num fuel text).1,
        ct f.text ≤ maxTok := by
  intro fuel
  induction fuel with
  | zero => intro text f hf; simp [splitByMaxTokensAux] at hf
  | succ n ih =>
    intro text f hf
    rw [splitByMaxTokensAux] at hf
    by_cases h : ct text ≤ maxTok
    · simp only [if_pos h, List.mem_singleton] at hf
      subst hf; exact h
    · simp only [if_neg h, List.mem_append] at hf
      rcases hf with hf | hf
      · exact ih _ f hf
      · exact ih _ f hf

/-- C1: every fragment yielded by `split_page_by_max_tokens` has token count,
per the external counter `ct`, at most `max_tokens_per_section` (the only
`yield` of a fragment is guarded by `len(tokens) <= self.max_tokens_per_section`). -/
theorem token_bound_respected (ct : Chars → Nat) (maxTok : Nat)
    (page_num : Nat) (text : Chars) :
    ∀ f ∈ splitPageByMaxTokens ct maxTok page_num text, ct f.text ≤ maxTok :=
  fun f hf => splitByMaxTokensAux_bound ct maxTok page_num _ text f hf

theorem token_bound_respected_witness :
    (⟨0, "hi".data⟩ : SplitPage) ∈ splitPageByMaxTokens List.length 500 0 "hi".data ∧
      List.length (SplitPage.text ⟨0, "hi".data⟩) ≤ 500 :=
  ⟨by decide,
   token_bound_respected List.length 500 0 "hi".data ⟨0, "hi".data⟩ (by decide)⟩

/-- C2: `split_page_by_max_tokens` does NOT terminate on a single-character
text whose token count exceeds the budget: with a counter giving `"a"` one
token and `max_tokens_per_section = 0`, the recursion calls itself on
`second_half = text[0:]`, which equals the whole text, so no amount of fuel
completes the computation. -/
theorem splitTokens_stuck_on_single_char :
    ∀ fuel : Nat,
      (splitByMaxTokensAux List.length 0 0 fuel ['a']).2 = false := by
  intro fuel
  induction fuel with
  | zero => rfl
  | succ n ih =>
    rw [splitByMaxTokensAux]
    have hct : ¬ (List.length ['a'] ≤ 0) := by decide
    have hsp : spiralFind ['a'] = -1 := by decide
    simp only [if_neg hct, hsp]
    simp [ih]

/-- C9: inside the spiral search loop, the guard `start - pos > boundary`
with `start = len // 2`, `boundary = len // 3` keeps both accessed indices
`start - pos` and `start + pos` inside `[0, len)`. -/
theorem spiral_access_in_bounds (text : Chars) (pos : Nat)
    (h : spiralBoundary text.length + pos < spiralStart text.length) :
    pos ≤ spiralStart text.length ∧
      spiralStart text.length - pos < text.length ∧
      spiralStart text.length + pos < text.length := by
  simp only [spiralStart, spiralBoundary] at *
  omega

theorem spiral_access_in_bounds_witness :
    spiralBoundary 10 + 1 < spiralStart 10 ∧ spiralStart 10 + 1 < 10 :=
  ⟨by decide, (spiral_access_in_bounds (List.replicate 10 'a') 1 (by decide)).2.2⟩

/-- The linear scan of `find_page` (lines 140-145): for consecutive pages
`pages[i]`, `pages[i+1]`, return `pages[i].page_num` when
`pages[i].offset <= offset < pages[i+1].offset`. -/
def findPageScan : List Page → Nat → Option Nat
  | p1 :: p2 :: rest, off =>
    if p1.offset ≤ off ∧ off < p2.offset then some p1.page_num
    else findPageScan (p2 :: rest) off
  | _, _ => none

/-- `pages[num_pages - 1].page_num`, the fallback of `find_page`. -/
def lastPageNum (pages : List Page) : Nat :=
  ((pages.getLast?).map Page.page_num).getD 0

/-- `find_page` from `SentenceTextSplitter.split_pages`. -/
def findPage (pages : List Page) (off : Nat) : Nat :=
  (findPageScan pages off).getD (lastPageNum pages)

theorem chain_head_le_get :
    ∀ (p : Page) (l : List Page),
      List.Chain' (fun a b => a.offset < b.offset) (p :: l) →
      ∀ (j : Nat) (hj : j < (p :: l).length),
        p.offset ≤ ((p :: l).get ⟨j, hj⟩).offset
  | _, _, _, 0, _ => Nat.le_refl _
  | p, q :: l, h, j+1, hj => by
    have h1 : p.offset < q.offset := (List.chain'_cons.mp h).1
    have h2 := chain_head_le_get q l (List.chain'_cons.mp h).2 j
      (Nat.lt_of_succ_lt_succ hj)
    simpa using Nat.le_trans (Nat.le_of_lt h1) h2

theorem findPage_tail (p1 p2 : Page) (rest : List Page) (off : Nat)
    (h : ¬(p1.offset ≤ off ∧ off < p2.offset)) :
    findPage (p1 :: p2 :: rest) off = findPage (p2 :: rest) off := by
  simp only [findPage, findPageScan, if_neg h, lastPageNum,
    List.getLast?_cons_cons]

theorem findPage_last :
    ∀ (pages : List Page) (hne : pages ≠ []) (off : Nat),
      List.Chain' (fun a b => a.offset < b.offset) pages →
      (pages.getLast hne).offset ≤ off →
      findPage pages off = (pages.getLast hne).page_num
  | [], hne, _, _, _ => absurd rfl hne
  | [p], _, off, _, _ => by simp [findPage, findPageScan, lastPageNum]
  | p1 :: p2 :: rest, _, off, hchain, hoff => by
    have hlast : (p1 :: p2 :: rest).getLast (by simp) =
        (p2 :: rest).getLast (by simp) := List.getLast_cons (by simp)
    rw [hlast] at hoff
    have htail := (List.chain'_cons.mp hchain).2
    have hp2 : p2.offset ≤ ((p2 :: rest).getLast (by simp)).offset := by
      have := List.getLast_mem (l := p2 :: rest) (by simp)
      rcases List.mem_iff_get.mp this with ⟨⟨j, hj⟩, hget⟩
      rw [← hget]
      exact chain_head_le_get p2 rest htail j hj
    have hcond : ¬(p1.offset ≤ off ∧ off < p2.offset) := by
      intro hc; exact absurd (Nat.lt_of_lt_of_le hc.2 (Nat.le_trans hp2 hoff))
        (Nat.lt_irrefl off)
    rw [findPage_tail p1 p2 rest off hcond, hlast]
    exact findPage_last (p2 :: rest) (by simp) off htail hoff

theorem findPage_interval :
    ∀ (pages : List Page) (off : Nat) (i : Nat) (h : i < pages.length)
      (hi : i + 1 < pages.length),
      List.Chain' (fun a b => a.offset < b.offset) pages →
      (pages.get ⟨i, h⟩).offset ≤ off →
      off < (pages.get ⟨i+1, hi⟩).offset →
      findPage pages off = (pages.get ⟨i, h⟩).page_num
  | [], _, i, h, _, _, _, _ => absurd h (by simp)
  | [p], _, i, _, hi, _, _, _ => by simp at hi
  | p1 :: p2 :: rest, off, 0, h, hi, hchain, hlo, hhi => by
    have : findPageScan (p1 :: p2 :: rest) off = some p1.page_num := by
      rw [findPageScan, if_pos ⟨hlo, hhi⟩]
    simp [findPage, this]
  | p1 :: p2 :: rest, off, j+1, h, hi, hchain, hlo, hhi => by
    have htail := (List.chain'_cons.mp hchain).2
    have hget : ((p1 :: p2 :: rest).get ⟨j+1, h⟩) =
        ((p2 :: rest).get ⟨j, Nat.lt_of_succ_lt_succ h⟩) := rfl
    have hp2 : p2.offset ≤ ((p2 :: rest).get ⟨j, Nat.lt_of_succ_lt_succ h⟩).offset :=
      chain_head_le_get p2 rest htail j (Nat.lt_of_succ_lt_succ h)
    have hcond : ¬(p1.offset ≤ off ∧ off < p2.offset) := by
      rw [hget] at hlo
      intro hc; exact absurd (Nat.lt_of_lt_of_le hc.2 (Nat.le_trans hp2 hlo))
        (Nat.lt_irrefl off)
    rw [findPage_tail p1 p2 rest off hcond, hget]
    exact findPage_interval (p2 :: rest) off j (Nat.lt_of_succ_lt_succ h)
      (Nat.lt_of_succ_lt_succ hi) htail (hget ▸ hlo) hhi

/-- C5: for pages with strictly increasing offsets, `find_page(offset)`
returns the page whose half-open range contains the offset, the last page for
any offset at or past its start, and attributes a boundary offset equal to a
page's start offset to that page. -/
theorem findPage_spec (pages : List Page) (off : Nat) (hne : pages ≠ [])
    (hsorted : List.Chain' (fun a b => a.offset < b.offset) pages) :
    (∀ (i : Nat) (h : i < pages.length) (hi : i + 1 < pages.length),
        (pages.get ⟨i, h⟩).offset ≤ off → off < (pages.get ⟨i+1, hi⟩).offset →
        findPage pages off = (pages.get ⟨i, h⟩).page_num)
    ∧ ((pages.getLast hne).offset ≤ off →
        findPage pages off = (pages.getLast hne).page_num)
    ∧ (∀ (i : Nat) (h : i < pages.length),
        off = (pages.get ⟨i, h⟩).offset →
        findPage pages off = (pages.get ⟨i, h⟩).page_num) := by
  refine ⟨fun i h hi hlo hhi => findPage_interval pages off i h hi hsorted hlo hhi,
    fun hlast => findPage_last pages hne off hsorted hlast, ?_⟩
  intro i h heq
  by_cases hi : i + 1 < pages.length
  · refine findPage_interval pages off i h hi hsorted (Nat.le_of_eq heq.symm) ?_
    have := List.chain'_iff_get.mp hsorted i (by omega)
    omega
  · have hilen : i = pages.length - 1 := by omega
    have hlast : pages.getLast hne = pages.get ⟨i, h⟩ := by
      subst hilen
      rw [List.getLast_eq_getElem, List.get_eq_getElem]
    rw [← hlast]
    exact findPage_last pages hne off hsorted (hlast ▸ Nat.le_of_eq heq.symm)

def fpPages : List Page := [⟨3, 0, "aaaaa".data⟩, ⟨7, 5, "bbb".data⟩]

theorem findPage_spec_witness :
    fpPages ≠ [] ∧ findPage fpPages 6 = 7 := by
  refine ⟨by decide, ?_⟩
  have hch : List.Chain' (fun a b => a.offset < b.offset) fpPages :=
    List.chain'_cons.mpr ⟨by decide, List.chain'_singleton _⟩
  have h := (findPage_spec fpPages 6 (by decide) hch).2.1 (by decide)
  rw [h]; decide

/-- The forward end-of-sentence search (lines 166-173): from `e`, while fewer
than `sentence_search_limit = 100` steps were taken and `e < len` and
`text[e]` is no sentence ending, remember the last word break in `lw` and
advance.  `left` counts the remaining steps of the limit. -/
def fwdScanAux (text : Chars) : Nat → Nat → Int → Nat × Int
  | 0, e, lw => (e, lw)
  | left+1, e, lw =>
    if e < text.length ∧ text.getD e '\x00' ∉ sentenceEndings then
      fwdScanAux text left (e + 1)
        (if text.getD e '\x00' ∈ wordBreaks then (e : Int) else lw)
    else (e, lw)

/-- The window end before the final advance (lines 159-175): `start + 1000`
capped at the length, otherwise searched forward for a sentence ending with
word-break fallback (`last_word > 0`). -/
def computeEndCore (text : Chars) (start : Nat) : Nat :=
  if text.length < start + 1000 then text.length
  else
    if (fwdScanAux text 100 (start + 1000) (-1)).1 < text.length ∧
        text.getD (fwdScanAux text 100 (start + 1000) (-1)).1 '\x00' ∉
          sentenceEndings ∧
        0 < (fwdScanAux text 100 (start + 1000) (-1)).2
    then (fwdScanAux text 100 (start + 1000) (-1)).2.toNat
    else (fwdScanAux text 100 (start + 1000) (-1)).1

/-- The window end computation (lines 159-177): `computeEndCore`, then
advanced past the boundary character while inside the text. -/
def computeEnd (text : Chars) (start : Nat) : Nat :=
  if computeEndCore text start < text.length then computeEndCore text start + 1
  else computeEndCore text start

/-- The backward start-of-sentence search (lines 181-188): from `start`, while
`start > 0` and `start > end - 1000 - 2*100` and `text[start]` is no sentence
ending, remember the last word break and step back. -/
def backScanAux (text : Chars) (e : Nat) : Nat → Int → Nat × Int
  | 0, lw => (0, lw)
  | s+1, lw =>
    if (e : Int) - 1200 < ((s+1 : Nat) : Int) ∧
        text.getD (s+1) '\x00' ∉ sentenceEndings then
      backScanAux text e s
        (if text.getD (s+1) '\x00' ∈ wordBreaks then ((s+1 : Nat) : Int) else lw)
    else (s+1, lw)

/-- The window start before the final advance (lines 180-190): backward
search, then word-break fallback (`last_word > 0`). -/
def computeStartCore (text : Chars) (start e : Nat) : Nat :=
  if text.getD (backScanAux text e start (-1)).1 '\x00' ∉ sentenceEndings ∧
      0 < (backScanAux text e start (-1)).2
  then (backScanAux text e start (-1)).2.toNat
  else (backScanAux text e start (-1)).1

/-- The window start adjustment (lines 180-192): `computeStartCore`, then
advance past the boundary character when the result is positive. -/
def computeStart (text : Chars) (start e : Nat) : Nat :=
  if 0 < computeStartCore text start e then computeStartCore text start e + 1
  else computeStartCore text start e

/-- `str.rfind` worker: walk the suffixes of `hay`, remembering the last
position whose prefix equals `needle`. -/
def rfindGo (needle : Chars) : Chars → Nat → Int → Int
  | [], i, best => if needle.isEmpty then (i : Int) else best
  | c :: rest, i, best =>
    rfindGo needle rest (i + 1)
      (if (c :: rest).take needle.length = needle then (i : Int) else best)

/-- Python `hay.rfind(needle)`: highest index of an occurrence, `-1` if none. -/
def rfindStr (hay needle : Chars) : Int := rfindGo needle hay 0 (-1)

def figureOpenTag : Chars := "<figure".data

def figureCloseTag : Chars := "</figure".data

/-- `section_text = all_text[start:end]` (line 194). -/
def sectionOf (text : Chars) (s e : Nat) : Chars := (text.drop s).take (e - s)

/-- `last_figure_start = section_text.rfind("<figure")` (line 197). -/
def figStartOf (text : Chars) (s e : Nat) : Int :=
  rfindStr (sectionOf text s e) figureOpenTag

/-- The unclosed-figure condition of line 198: the last `"<figure"` lies more
than `2 * sentence_search_limit = 200` characters into the window and after
the last `"</figure"`. -/
def figCondB (text : Chars) (s e : Nat) : Bool :=
  200 < figStartOf text s e ∧
    rfindStr (sectionOf text s e) figureCloseTag < figStartOf text s e

/-- The next window start (lines 197-207): `min(end - 100, start +
last_figure_start)` in the unclosed-figure case, else `end - 100`. -/
def nextStart (text : Chars) (s e : Nat) : Nat :=
  if figCondB text s e then min (e - 100) (s + (figStartOf text s e).toNat)
  else e - 100

/-- The window loop of `split_pages` (lines 156-210) as the list of emitted
`(start, end)` windows; `e0` is the incoming value of the loop-external `end`
variable, used by the trailing yield of lines 209-210. -/
def splitLoop (text : Chars) : Nat → Nat → Nat → List (Nat × Nat)
  | 0, _, _ => []
  | fuel+1, start, e0 =>
    if start + 100 < text.length then
      let e := computeEnd text start
      let s := computeStart text start e
      (s, e) :: splitLoop text fuel (nextStart text s e) e
    else if start + 100 < e0 then [(start, e0)] else []

/-- All `(start, end)` windows emitted by the loop of `split_pages` on
`all_text` (each window's slice is then fed to `split_page_by_max_tokens`).
Each iteration increases `start`, so `length + 1` fuel always completes. -/
def sectionWindows (text : Chars) : List (Nat × Nat) :=
  splitLoop text (text.length + 1) 0 text.length

/-- `all_text = "".join(page.text for page in pages)` (line 147). -/
def concatText (pages : List Page) : Chars := (pages.map Page.text).flatten

/-- `SentenceTextSplitter.split_pages` (lines 139-210): empty-after-strip
short-circuit, whole-buffer fast path for short texts, else the window loop,
every window fed through `split_page_by_max_tokens` tagged `find_page(start)`. -/
def splitPagesSentence (ct : Chars → Nat) (maxTok : Nat)
    (pages : List Page) : List SplitPage :=
  let all := concatText pages
  if (pyStrip all).length = 0 then []
  else if all.length ≤ 1000 then
    splitPageByMaxTokens ct maxTok (findPage pages 0) all
  else
    (sectionWindows all).flatMap fun se =>
      splitPageByMaxTokens ct maxTok (findPage pages se.1)
        (sectionOf all se.1 se.2)

/-- C6: when the concatenated text is non-empty after stripping, within the
section length limit and within the token budget, `split_pages` yields exactly
one fragment: the whole buffer, tagged with `find_page(0)`. -/
theorem short_input_single_fragment (ct : Chars → Nat) (maxTok : Nat)
    (pages : List Page)
    (h1 : (pyStrip (concatText pages)).length ≠ 0)
    (h2 : (concatText pages).length ≤ 1000)
    (h3 : ct (concatText pages) ≤ maxTok) :
    splitPagesSentence ct maxTok pages =
      [⟨findPage pages 0, concatText pages⟩] := by
  unfold splitPagesSentence
  simp only [if_neg h1, if_pos h2]
  unfold splitPageByMaxTokens
  rw [splitByMaxTokensAux]
  simp [h3]

def scenarioPages : List Page :=
  [⟨0, 0, "Hello world. ".data⟩, ⟨1, 13, "Bye now.".data⟩]

theorem short_input_single_fragment_witness :
    splitPagesSentence List.length 500 scenarioPages =
      [⟨0, "Hello world. Bye now.".data⟩] := by
  have h := short_input_single_fragment List.length 500 scenarioPages
    (by decide) (by decide) (by decide)
  rw [h]; decide

theorem fwdScanAux_spec (text : Chars) :
    ∀ (left e : Nat) (lw : Int),
      e ≤ (fwdScanAux text left e lw).1 ∧
      (fwdScanAux text left e lw).1 ≤ e + left ∧
      (e ≤ text.length → (fwdScanAux text left e lw).1 ≤ text.length) ∧
      ((fwdScanAux text left e lw).2 = lw ∨
        (0 ≤ (fwdScanAux text left e lw).2 ∧
          e ≤ (fwdScanAux text left e lw).2.toNat ∧
          (fwdScanAux text left e lw).2.toNat < (fwdScanAux text left e lw).1)) := by
  intro left
  induction left with
  | zero =>
    intro e lw
    simp [fwdScanAux]
  | succ n ih =>
    intro e lw
    rw [fwdScanAux]
    by_cases h : e < text.length ∧ text.getD e '\x00' ∉ sentenceEndings
    · rw [if_pos h]
      by_cases hb : text.getD e '\x00' ∈ wordBreaks
      · rw [if_pos hb]
        obtain ⟨ih1, ih2, ih3, ih4⟩ := ih (e + 1) ((e : Nat) : Int)
        refine ⟨by omega, by omega, fun _ => ih3 (by omega), ?_⟩
        rcases ih4 with ih4 | ih4
        · exact Or.inr ⟨by omega, by omega, by omega⟩
        · exact Or.inr ⟨ih4.1, by omega, ih4.2.2⟩
      · rw [if_neg hb]
        obtain ⟨ih1, ih2, ih3, ih4⟩ := ih (e + 1) lw
        refine ⟨by omega, by omega, fun _ => ih3 (by omega), ?_⟩
        rcases ih4 with ih4 | ih4
        · exact Or.inl ih4
        · exact Or.inr ⟨ih4.1, by omega, ih4.2.2⟩
    · rw [if_neg h]
      exact ⟨Nat.le_refl _, by omega, fun he => he, Or.inl rfl⟩

theorem computeEndCore_bounds (text : Chars) (st : Nat) :
    computeEndCore text st ≤ text.length ∧
      computeEndCore text st ≤ st + 1100 ∧
      min (st + 1000) text.length ≤ computeEndCore text st := by
  unfold computeEndCore
  by_cases h : text.length < st + 1000
  · simp only [if_pos h]
    omega
  · simp only [if_neg h]
    obtain ⟨h1, h2, h3, h4⟩ := fwdScanAux_spec text 100 (st + 1000) (-1)
    by_cases hf : (fwdScanAux text 100 (st + 1000) (-1)).1 < text.length ∧
        text.getD (fwdScanAux text 100 (st + 1000) (-1)).1 '\x00' ∉
          sentenceEndings ∧
        0 < (fwdScanAux text 100 (st + 1000) (-1)).2
    · simp only [if_pos hf]
      rcases h4 with h4 | h4
      · exact absurd (h4 ▸ hf.2.2) (by decide)
      · have := h3 (by omega)
        omega
    · simp only [if_neg hf]
      have := h3 (by omega)
      omega

theorem computeEnd_bounds (text : Chars) (st : Nat) :
    computeEnd text st ≤ text.length ∧
      computeEnd text st ≤ st + 1101 ∧
      min (st + 1000) text.length ≤ computeEnd text st := by
  unfold computeEnd
  obtain ⟨h1, h2, h3⟩ := computeEndCore_bounds text st
  by_cases h : computeEndCore text st < text.length
  · simp only [if_pos h]; omega
  · simp only [if_neg h]; omega

theorem backScanAux_spec (text : Chars) (e : Nat) :
    ∀ (st : Nat) (lw0 : Int),
      (backScanAux text e st lw0).1 ≤ st ∧
      ((backScanAux text e st lw0).2 = lw0 ∨
        (0 < (backScanAux text e st lw0).2 ∧
          (backScanAux text e st lw0).2.toNat ≤ st ∧
          (e : Int) - 1200 < (backScanAux text e st lw0).2)) ∧
      ((e : Int) - 1200 ≤ (st : Int) →
        (e : Int) - 1200 ≤ ((backScanAux text e st lw0).1 : Int)) := by
  intro st
  induction st with
  | zero =>
    intro lw0
    simp [backScanAux]
  | succ s ih =>
    intro lw0
    rw [backScanAux]
    by_cases h : (e : Int) - 1200 < ((s+1 : Nat) : Int) ∧
        text.getD (s+1) '\x00' ∉ sentenceEndings
    · rw [if_pos h]
      by_cases hb : text.getD (s+1) '\x00' ∈ wordBreaks
      · rw [if_pos hb]
        obtain ⟨ih1, ih2, ih3⟩ := ih (((s+1 : Nat) : Int))
        refine ⟨by omega, ?_, fun _ => ih3 (by omega)⟩
        rcases ih2 with ih2 | ih2
        · exact Or.inr ⟨by omega, by omega, by omega⟩
        · exact Or.inr ⟨ih2.1, by omega, ih2.2.2⟩
      · rw [if_neg hb]
        obtain ⟨ih1, ih2, ih3⟩ := ih lw0
        refine ⟨by omega, ?_, fun _ => ih3 (by omega)⟩
        rcases ih2 with ih2 | ih2
        · exact Or.inl ih2
        · exact Or.inr ⟨ih2.1, by omega, ih2.2.2⟩
    · rw [if_neg h]
      exact ⟨Nat.le_refl _, Or.inl rfl, fun hle => hle⟩

theorem computeStart_le (text : Chars) (st e : Nat) :
    computeStart text st e ≤ st + 1 := by
  unfold computeStart computeStartCore
  obtain ⟨h1, h2, h3⟩ := backScanAux_spec text e st (-1)
  rcases h2 with h2 | h2
  · by_cases hc : text.getD (backScanAux text e st (-1)).1 '\x00' ∉
        sentenceEndings ∧ 0 < (backScanAux text e st (-1)).2
    · exact absurd (h2 ▸ hc.2) (by decide)
    · simp only [if_neg hc]
      split <;> omega
  · split <;> split <;> omega

theorem computeStart_ge (text : Chars) (st e : Nat)
    (h : (e : Int) - 1200 ≤ (st : Int)) :
    (e : Int) - 1200 ≤ (computeStart text st e : Int) := by
  unfold computeStart computeStartCore
  obtain ⟨h1, h2, h3⟩ := backScanAux_spec text e st (-1)
  have h3' := h3 h
  rcases h2 with h2 | h2
  · by_cases hc : text.getD (backScanAux text e st (-1)).1 '\x00' ∉
        sentenceEndings ∧ 0 < (backScanAux text e st (-1)).2
    · exact absurd (h2 ▸ hc.2) (by decide)
    · simp only [if_neg hc]
      split <;> [omega; omega]
  · split <;> split <;> omega

theorem computeStart_le_of_plain (text : Chars) (st e : Nat)
    (h1 : text.getD st '\x00' ∉ sentenceEndings)
    (h2 : text.getD st '\x00' ∉ wordBreaks)
    (h3 : (e : Int) - 1200 < (st : Int)) :
    computeStart text st e ≤ st := by
  match st with
  | 0 =>
    have : computeStart text 0 e = 0 := by
      unfold computeStart computeStartCore
      simp [backScanAux]
    omega
  | s+1 =>
    have hstep : backScanAux text e (s+1) (-1) = backScanAux text e s (-1) := by
      rw [backScanAux, if_pos ⟨h3, h1⟩, if_neg h2]
    obtain ⟨hb1, hb2, _⟩ := backScanAux_spec text e s (-1)
    unfold computeStart computeStartCore
    rw [hstep]
    rcases hb2 with hb2 | hb2
    · have hcond : ¬(text.getD (backScanAux text e s (-1)).1 '\x00' ∉
          sentenceEndings ∧ 0 < (backScanAux text e s (-1)).2) := by
        intro hc; exact absurd (hb2 ▸ hc.2) (by decide)
      rw [if_neg hcond]
      split <;> omega
    · split <;> split <;> omega

theorem rfindGo_spec (needle : Chars) :
    ∀ (l : Chars) (i : Nat) (best : Int),
      rfindGo needle l i best = best ∨
      ∃ j : Nat, rfindGo needle l i best = ((i + j : Nat) : Int) ∧
        (l.drop j).take needle.length = needle := by
  intro l
  induction l with
  | nil =>
    intro i best
    by_cases h : needle.isEmpty
    · refine Or.inr ⟨0, ?_, ?_⟩
      · simp [rfindGo, h]
      · rw [List.isEmpty_iff] at h
        simp [h]
    · exact Or.inl (by simp [rfindGo, h])
  | cons c rest ih =>
    intro i best
    rw [rfindGo]
    by_cases hm : (c :: rest).take needle.length = needle
    · rw [if_pos hm]
      rcases ih (i + 1) ((i : Nat) : Int) with h | ⟨j, hj1, hj2⟩
      · exact Or.inr ⟨0, by omega, by simpa using hm⟩
      · exact Or.inr ⟨j + 1, by omega, by simpa using hj2⟩
    · rw [if_neg hm]
      rcases ih (i + 1) best with h | ⟨j, hj1, hj2⟩
      · exact Or.inl h
      · exact Or.inr ⟨j + 1, by omega, by simpa using hj2⟩

theorem rfind_match (hay needle : Chars) (h : 0 ≤ rfindStr hay needle) :
    (hay.drop (rfindStr hay needle).toNat).take needle.length = needle := by
  rcases rfindGo_spec needle hay 0 (-1) with h1 | ⟨j, h1, h2⟩
  · rw [rfindStr] at h
    rw [h1] at h
    exact absurd h (by decide)
  · rw [rfindStr, h1]
    simpa using h2

theorem figCond_char (text : Chars) (s e : Nat) (h : figCondB text s e = true) :
    200 < figStartOf text s e ∧
      text.getD (s + (figStartOf text s e).toNat) '\x00' = '<' := by
  have hh : 200 < figStartOf text s e ∧
      rfindStr (sectionOf text s e) figureCloseTag < figStartOf text s e := by
    simpa [figCondB] using h
  refine ⟨hh.1, ?_⟩
  have h0 : (0 : Int) ≤ figStartOf text s e := by omega
  have hfig : figStartOf text s e = rfindStr (sectionOf text s e) figureOpenTag :=
    rfl
  have hm : ((sectionOf text s e).drop (figStartOf text s e).toNat).take
      figureOpenTag.length = figureOpenTag := by
    rw [hfig]
    exact rfind_match (sectionOf text s e) figureOpenTag (hfig ▸ h0)
  have hm' : ((sectionOf text s e).drop (figStartOf text s e).toNat).take 7 =
      figureOpenTag := by
    have h7 : figureOpenTag.length = 7 := rfl
    rw [← h7]; exact hm
  have hget : (sectionOf text s e).get? (figStartOf text s e).toNat = some '<' := by
    cases hd : (sectionOf text s e).drop (figStartOf text s e).toNat with
    | nil => rw [hd] at hm'; exact absurd hm' (by decide)
    | cons a t =>
      have ha : a = '<' := by
        rw [hd] at hm'
        have := congrArg List.head? hm'
        simpa [figureOpenTag] using this
      have h1 : (sectionOf text s e).get? (figStartOf text s e).toNat =
          ((sectionOf text s e).drop (figStartOf text s e).toNat).get? 0 := by
        rw [List.get?_drop, Nat.add_zero]
      rw [h1, hd, ha]; rfl
  have hjlt : (figStartOf text s e).toNat < (sectionOf text s e).length := by
    by_contra hc
    rw [List.get?_eq_none.mpr (by omega)] at hget
    simp at hget
  have hjlt2 : (figStartOf text s e).toNat < e - s := by
    have hlen : (sectionOf text s e).length =
        min (e - s) (text.drop s).length := by
      simp [sectionOf, List.length_take]
    omega
  have htext : text.get? (s + (figStartOf text s e).toNat) = some '<' := by
    have h1 : (sectionOf text s e).get? (figStartOf text s e).toNat =
        (text.drop s).get? (figStartOf text s e).toNat := List.get?_take hjlt2
    rw [h1, List.get?_drop] at hget
    exact hget
  have hgd : text.getD (s + (figStartOf text s e).toNat) '\x00' =
      (text.get? (s + (figStartOf text s e).toNat)).getD '\x00' := rfl
  rw [hgd, htext]
  rfl

theorem nextStart_le (text : Chars) (s e : Nat) : nextStart text s e ≤ e - 100 := by
  unfold nextStart
  split
  · exact Nat.min_le_left _ _
  · exact Nat.le_refl _

theorem nextStart_fig_le (text : Chars) (s e : Nat)
    (h : figCondB text s e = true) :
    nextStart text s e ≤ s + (figStartOf text s e).toNat := by
  unfold nextStart
  rw [if_pos h]
  exact Nat.min_le_right _ _

theorem window_succ (text : Chars) (f : Nat) (st s2 e2 : Nat)
    (hg : st + 100 < text.length)
    (hhead : (splitLoop text f
        (nextStart text (computeStart text st (computeEnd text st))
          (computeEnd text st))
        (computeEnd text st)).get? 0 = some (s2, e2)) :
    computeEnd text st ≤ e2 ∧ s2 + 99 ≤ computeEnd text st ∧
      (figCondB text (computeStart text st (computeEnd text st))
          (computeEnd text st) = true →
        s2 ≤ computeStart text st (computeEnd text st) +
          (figStartOf text (computeStart text st (computeEnd text st))
            (computeEnd text st)).toNat) := by
  set e1 := computeEnd text st with he1
  set s1 := computeStart text st e1 with hs1
  set ns := nextStart text s1 e1 with hns
  obtain ⟨heb1, heb2, heb3⟩ := computeEnd_bounds text st
  rw [← he1] at heb1 heb2 heb3
  have hcs : s1 ≤ st + 1 := hs1 ▸ computeStart_le text st e1
  have hsge : (e1 : Int) - 1200 ≤ (s1 : Int) :=
    hs1 ▸ computeStart_ge text st e1 (by omega)
  have he1lo : st + 101 ≤ e1 := by omega
  have hnsle : ns ≤ e1 - 100 := hns ▸ nextStart_le text s1 e1
  match f with
  | 0 => simp [splitLoop] at hhead
  | f + 1 =>
    rw [splitLoop] at hhead
    by_cases hg2 : ns + 100 < text.length
    · rw [if_pos hg2] at hhead
      simp only [List.get?_cons_zero, Option.some.injEq, Prod.mk.injEq] at hhead
      obtain ⟨hsa, hea⟩ := hhead
      obtain ⟨hf1, hf2, hf3⟩ := computeEnd_bounds text ns
      have hcs2 : computeStart text ns (computeEnd text ns) ≤ ns + 1 :=
        computeStart_le text ns (computeEnd text ns)
      refine ⟨?_, by omega, ?_⟩
      · -- e1 ≤ e2
        by_cases hcap : text.length ≤ ns + 1000
        · omega
        · -- computeEnd text ns ≥ ns + 1000
          by_cases hfig : figCondB text s1 e1 = true
          · obtain ⟨h200, _⟩ := figCond_char text s1 e1 hfig
            have hmin : ns = min (e1 - 100) (s1 + (figStartOf text s1 e1).toNat) := by
              rw [hns, nextStart, if_pos hfig]
            omega
          · have : ns = e1 - 100 := by
              rw [hns, nextStart, if_neg hfig]
            omega
      · -- figure pullback
        intro hfig
        obtain ⟨h200, hchar⟩ := figCond_char text s1 e1 hfig
        have hmin : ns = min (e1 - 100) (s1 + (figStartOf text s1 e1).toNat) := by
          rw [hns, nextStart, if_pos hfig]
        by_cases hcase : s1 + (figStartOf text s1 e1).toNat ≤ e1 - 100
        · have hnseq : ns = s1 + (figStartOf text s1 e1).toNat := by omega
          have hlt : computeStart text ns (computeEnd text ns) ≤ ns := by
            apply computeStart_le_of_plain
            · rw [hnseq, hchar]; decide
            · rw [hnseq, hchar]; decide
            · have := (computeEnd_bounds text ns).2.1
              omega
          omega
        · omega
    · rw [if_neg hg2] at hhead
      by_cases ht : ns + 100 < e1
      · rw [if_pos ht] at hhead
        simp only [List.get?_cons_zero, Option.some.injEq, Prod.mk.injEq] at hhead
        obtain ⟨hsa, hea⟩ := hhead
        refine ⟨by omega, by omega, fun hfig => ?_⟩
        have := hns ▸ nextStart_fig_le text s1 e1 hfig
        omega
      · rw [if_neg ht] at hhead
        simp at hhead

theorem splitLoop_consec (text : Chars) :
    ∀ (fuel st e0 i s1 e1 s2 e2 : Nat),
      (splitLoop text fuel st e0).get? i = some (s1, e1) →
      (splitLoop text fuel st e0).get? (i+1) = some (s2, e2) →
      (e1 ≤ e2 ∧ s1 + 99 ≤ e1 ∧ s2 + 99 ≤ e1) ∧
      (figCondB text s1 e1 = true → s2 ≤ s1 + (figStartOf text s1 e1).toNat) := by
  intro fuel
  induction fuel with
  | zero =>
    intro st e0 i s1 e1 s2 e2 h1 h2
    simp [splitLoop] at h1
  | succ f ih =>
    intro st e0 i s1 e1 s2 e2 h1 h2
    rw [splitLoop] at h1 h2
    by_cases hg : st + 100 < text.length
    · rw [if_pos hg] at h1 h2
      cases i with
      | zero =>
        simp only [List.get?_cons_zero, Option.some.injEq, Prod.mk.injEq] at h1
        obtain ⟨hs1, he1⟩ := h1
        subst hs1; subst he1
        rw [List.get?_cons_succ] at h2
        obtain ⟨ha, hb, hc⟩ := window_succ text f st s2 e2 hg h2
        have hcs : computeStart text st (computeEnd text st) ≤ st + 1 :=
          computeStart_le text st (computeEnd text st)
        have := (computeEnd_bounds text st).2.2
        refine ⟨⟨ha, by omega, hb⟩, hc⟩
      | succ j =>
        rw [List.get?_cons_succ] at h1 h2
        exact ih _ _ j s1 e1 s2 e2 h1 h2
    · rw [if_neg hg] at h1 h2
      by_cases ht : st + 100 < e0
      · rw [if_pos ht] at h1 h2
        cases i with
        | zero => simp at h2
        | succ j => simp at h1
      · rw [if_neg ht] at h1
        simp at h1

/-- C3: if two consecutive windows are emitted by the loop of `split_pages`
and the first window's text has a last `"<figure"` after the last `"</figure"`
and more than `2 * sentence_search_limit` characters into the window, the next
window starts at or before the absolute position of that `"<figure"`
occurrence. -/
theorem figure_pullback (text : Chars) (i s1 e1 s2 e2 : Nat)
    (h1 : (sectionWindows text).get? i = some (s1, e1))
    (h2 : (sectionWindows text).get? (i+1) = some (s2, e2))
    (hfig : figCondB text s1 e1 = true) :
    s2 ≤ s1 + (figStartOf text s1 e1).toNat :=
  (splitLoop_consec text _ _ _ i s1 e1 s2 e2 h1 h2).2 hfig

def cex2 : Chars :=
  List.replicate 490 'a' ++ '.' :: (List.replicate 9 'a' ++
    ("<figure".data ++ (List.replicate 493 'a' ++ '.' :: List.replicate 299 'a')))

set_option maxRecDepth 1000000

theorem figure_pullback_witness :
    (sectionWindows cex2).get? 0 = some (0, 1001) ∧
      (sectionWindows cex2).get? 1 = some (491, 1300) ∧
      figCondB cex2 0 1001 = true ∧
      491 ≤ 0 + (figStartOf cex2 0 1001).toNat :=
  ⟨by decide, by decide, by decide,
   figure_pullback cex2 0 0 1001 491 1300 (by decide) (by decide) (by decide)⟩

def cexText : Chars :=
  List.replicate 901 'a' ++ '.' :: (List.replicate 98 'a' ++ '.' :: ['a'])

/-- C4 counterexample: on this 1002-character text the loop emits the windows
`[0, 1001)` and `[902, 1002)` — the backward start search stops on the
sentence ending at index 901 and then advances one position past it, so the
two windows share only 99 characters, less than `section_overlap = 100`. -/
theorem windows_overlap_cex :
    sectionWindows cexText = [(0, 1001), (902, 1002)] ∧
      min 1001 1002 - max 0 902 < 100 :=
  ⟨by decide, by decide⟩

/-- C4 (amended): in the non-figure case the next window's start is assigned
`end - section_overlap`, and consecutive emitted windows always share at
least `section_overlap - 1 = 99` characters. -/
theorem windows_overlap_amended (text : Chars) (i s1 e1 s2 e2 : Nat)
    (h1 : (sectionWindows text).get? i = some (s1, e1))
    (h2 : (sectionWindows text).get? (i+1) = some (s2, e2)) :
    (figCondB text s1 e1 = false → nextStart text s1 e1 = e1 - 100) ∧
      max s1 s2 + 99 ≤ min e1 e2 := by
  obtain ⟨⟨ha, hb, hc⟩, _⟩ := splitLoop_consec text _ _ _ i s1 e1 s2 e2 h1 h2
  exact ⟨fun hf => by rw [nextStart, if_neg (by simp [hf])], by omega⟩

theorem windows_overlap_amended_witness :
    (sectionWindows cexText).get? 0 = some (0, 1001) ∧
      (sectionWindows cexText).get? 1 = some (902, 1002) ∧
      max 0 902 + 99 ≤ min 1001 1002 :=
  ⟨by decide, by decide,
   (windows_overlap_amended cexText 0 0 1001 902 1002 (by decide) (by decide)).2⟩

/-- Python `range(0, stop, step)` for positive `step`. -/
def pyRangeStep (stop step : Nat) : List Nat :=
  (List.range ((stop + step - 1) / step)).map (· * step)

/-- `SimpleTextSplitter.split_pages` (lines 222-235): empty-after-strip
short-circuit, single fragment when within `max_object_length`, else
fixed-size slices with the chunk ordinal `i // max_object_length` as the
emitted page number. -/
def splitPagesSimple (maxLen : Nat) (pages : List Page) : List SplitPage :=
  if (pyStrip (concatText pages)).length = 0 then []
  else if (concatText pages).length ≤ maxLen then [⟨0, concatText pages⟩]
  else (pyRangeStep (concatText pages).length maxLen).map
    (fun i => ⟨i / maxLen, ((concatText pages).drop i).take maxLen⟩)

/-- C7: the length-only splitter yields nothing on whitespace-only input;
otherwise, above the limit, it yields exactly
`ceil(total_length / max_object_length)` fragments, the `j`-th being the slice
`all_text[j*max : j*max + max]` with page number `j`, every fragment within
the length bound and all but the last of full length. -/
theorem simple_splitter_spec (maxLen : Nat) (pages : List Page)
    (hpos : 0 < maxLen) :
    ((pyStrip (concatText pages)).length = 0 →
      splitPagesSimple maxLen pages = []) ∧
    ((pyStrip (concatText pages)).length ≠ 0 →
      maxLen < (concatText pages).length →
      (splitPagesSimple maxLen pages).length =
          ((concatText pages).length + maxLen - 1) / maxLen ∧
        (∀ j : Nat, j < (splitPagesSimple maxLen pages).length →
          (splitPagesSimple maxLen pages).get? j =
            some ⟨j, ((concatText pages).drop (j * maxLen)).take maxLen⟩) ∧
        (∀ f ∈ splitPagesSimple maxLen pages, f.text.length ≤ maxLen) ∧
        (∀ j : Nat, j + 1 < (splitPagesSimple maxLen pages).length →
          ∃ f, (splitPagesSimple maxLen pages).get? j = some f ∧
            f.text.length = maxLen)) := by
  constructor
  · intro h
    simp [splitPagesSimple, h]
  · intro h1 h2
    have hout : splitPagesSimple maxLen pages =
        (pyRangeStep (concatText pages).length maxLen).map
          (fun i => ⟨i / maxLen, ((concatText pages).drop i).take maxLen⟩) := by
      rw [splitPagesSimple, if_neg h1, if_neg (Nat.not_le.mpr h2)]
    have hlen : (splitPagesSimple maxLen pages).length =
        ((concatText pages).length + maxLen - 1) / maxLen := by
      simp [hout, pyRangeStep]
    have hget : ∀ j : Nat, j < (splitPagesSimple maxLen pages).length →
        (splitPagesSimple maxLen pages).get? j =
          some ⟨j, ((concatText pages).drop (j * maxLen)).take maxLen⟩ := by
      intro j hj
      rw [hlen] at hj
      rw [hout, pyRangeStep, List.map_map, List.get?_map, List.get?_range hj]
      simp [Nat.mul_div_cancel _ hpos]
    refine ⟨hlen, hget, ?_, ?_⟩
    · intro f hf
      rw [hout] at hf
      obtain ⟨i, _, rfl⟩ := List.mem_map.mp hf
      simp [List.length_take]
    · intro j hj
      refine ⟨⟨j, ((concatText pages).drop (j * maxLen)).take maxLen⟩,
        hget j (by omega), ?_⟩
      have hcnt : j + 2 ≤ ((concatText pages).length + maxLen - 1) / maxLen := by
        rw [hlen] at hj; omega
      have hmul : (j + 2) * maxLen ≤ (concatText pages).length + maxLen - 1 :=
        (Nat.le_div_iff_mul_le hpos).mp hcnt
      have hexp : (j + 2) * maxLen = j * maxLen + maxLen + maxLen := by ring
      simp only [List.length_take, List.length_drop]
      omega

def sPages : List Page := [⟨0, 0, "abcde".data⟩]

theorem simple_splitter_spec_witness :
    (0 < 2 ∧ 2 < (concatText sPages).length) ∧
      (splitPagesSimple 2 sPages).length = 3 := by
  refine ⟨⟨by decide, by decide⟩, ?_⟩
  have h := ((simple_splitter_spec 2 sPages (by decide)).2 (by decide)
    (by decide)).1
  rw [h]; decide

/-- A sheet record as produced by `ExcelParser.parse` in `excelparser.py`:
`Page(page_num=sheet_name, offset=None, text=sheet)`.  The sheet identifier
is a number, the worksheet is its rows of cells, `openpyxl`'s `cell.value`
being `None` for blank cells and modelled already stringified otherwise. -/
structure SheetPage where
  page_num : Nat
  sheet : List (List (Option Chars))

/-- `str(cell.value)` with `None` replaced by `""` (lines 289-293). -/
def cellToText (c : Option Chars) : Chars := c.getD []

/-- One processed `row_data` of `get_sheet_data`. -/
def rowToData (row : List (Option Chars)) : List Chars := row.map cellToText

/-- The `data` component of `ExcelSplitter.get_sheet_data` (lines 285-295):
rows after the header row whose cells, joined and stripped, are non-empty. -/
def sheetData (sheet : List (List (Option Chars))) : List (List Chars) :=
  ((sheet.drop 1).map rowToData).filter fun r => !(pyStrip r.flatten).isEmpty

/-- The `headers` component of `get_sheet_data` (line 296): the first row,
`None` replaced by `""`. -/
def sheetHeaders (sheet : List (List (Option Chars))) : List Chars :=
  (sheet.headD []).map cellToText

/-- Python `str.split(sep)` for a one-character separator. -/
def splitOnChar (sep : Char) : Chars → List Chars
  | [] => [[]]
  | c :: rest =>
    if c = sep then [] :: splitOnChar sep rest
    else
      match splitOnChar sep rest with
      | [] => [[c]]
      | s :: ss => (c :: s) :: ss

/-- `ExcelSplitter.clean_markdown_table` (lines 299-322): keep pure
border/separator lines, strip the interior cells of the others. -/
def cleanMarkdownTable (table : Chars) : Chars :=
  List.intercalate ['\n'] ((splitOnChar '\n' table).map fun line =>
    if (pyStrip line).all (fun c => decide (c ∈ ['-', '|', ' '])) then line
    else
      "| ".data ++
        List.intercalate " | ".data
          ((((splitOnChar '|' line).drop 1).dropLast).map pyStrip) ++
        " |".data)

/-- The row blocks `rows[start_row : start_row + step]` with `step = 50`
(lines 250-252). -/
def perSheetChunks (rows : List (List Chars)) : List (List (List Chars)) :=
  (pyRangeStep rows.length 50).map fun i => (rows.drop i).take 50

/-- `ExcelSplitter.split_pages` for one sheet record (lines 245-259).  The
cells are already strings, so the `pd.notna` substitution is the identity;
`tab` is the external `tabulate(..., headers="firstrow", tablefmt="grid")`
renderer applied to `[headers] + chunk_rows`. -/
def perSheetFragments (tab : List (List Chars) → Chars) (sp : SheetPage) :
    List SplitPage :=
  (perSheetChunks (sheetData sp.sheet)).map fun chunk =>
    ⟨sp.page_num, cleanMarkdownTable (tab (sheetHeaders sp.sheet :: chunk))⟩

/-- `ExcelSplitter.split_pages` over all sheet records (lines 245-260). -/
def splitPagesExcel (tab : List (List Chars) → Chars)
    (pages : List SheetPage) : List SplitPage :=
  pages.flatMap (perSheetFragments tab)

theorem chunks_flatten :
    ∀ (n : Nat) (rows : List (List Chars)),
      rows.length ≤ n → (perSheetChunks rows).flatten = rows := by
  intro n
  induction n with
  | zero =>
    intro rows h
    have h0 : rows = [] := List.length_eq_zero.mp (by omega)
    subst h0; rfl
  | succ n ih =>
    intro rows h
    rcases Nat.eq_zero_or_pos rows.length with h0 | h0
    · have : rows = [] := List.length_eq_zero.mp h0
      subst this; rfl
    · have hcnt : (rows.length + 50 - 1) / 50 = (rows.length - 1) / 50 + 1 := by
        omega
      show ((pyRangeStep rows.length 50).map
          (fun i => (rows.drop i).take 50)).flatten = rows
      rw [pyRangeStep, hcnt, List.range_succ_eq_map]
      simp only [List.map_cons, List.map_map, List.flatten_cons, Nat.zero_mul,
        List.drop_zero]
      have hmap : (List.range ((rows.length - 1) / 50)).map
          ((fun i => (rows.drop i).take 50) ∘ ((· * 50) ∘ Nat.succ)) =
          (List.range ((rows.length - 1) / 50)).map
            (fun j => ((rows.drop 50).drop (j * 50)).take 50) := by
        apply List.map_congr_left
        intro j _
        simp only [Function.comp_apply, List.drop_drop]
        have h5050 : 50 + j * 50 = Nat.succ j * 50 := by omega
        rw [h5050]
      rw [hmap]
      have hrec : (List.range ((rows.length - 1) / 50)).map
          (fun j => ((rows.drop 50).drop (j * 50)).take 50) =
          (pyRangeStep (rows.drop 50).length 50).map
            (fun i => ((rows.drop 50).drop i).take 50) := by
        rw [pyRangeStep, List.map_map, List.length_drop]
        have : ((rows.length - 50) + 50 - 1) / 50 = (rows.length - 1) / 50 := by
          omega
        rw [this]
        apply List.map_congr_left
        intro j _
        rfl
      rw [hrec]
      have := ih (rows.drop 50) (by rw [List.length_drop]; omega)
      rw [perSheetChunks] at this
      rw [this, List.take_append_drop]

/-- C8: per sheet record, the non-blank data rows are partitioned into
consecutive blocks of at most 50 rows, `ceil(n / 50)` fragments are emitted
for `n` data rows (120 rows give 3), and every fragment carries the sheet's
page identifier. -/
theorem excel_chunking (tab : List (List Chars) → Chars) (sp : SheetPage) :
    (perSheetFragments tab sp).length =
        ((sheetData sp.sheet).length + 49) / 50 ∧
      (∀ f ∈ perSheetFragments tab sp, f.page_num = sp.page_num) ∧
      (perSheetChunks (sheetData sp.sheet)).flatten = sheetData sp.sheet ∧
      (∀ c ∈ perSheetChunks (sheetData sp.sheet), c.length ≤ 50) ∧
      ((sheetData sp.sheet).length = 120 →
        (perSheetFragments tab sp).length = 3) := by
  have hlen : (perSheetFragments tab sp).length =
      ((sheetData sp.sheet).length + 49) / 50 := by
    simp [perSheetFragments, perSheetChunks, pyRangeStep]
  refine ⟨hlen, ?_,
    chunks_flatten (sheetData sp.sheet).length _ (Nat.le_refl _), ?_, ?_⟩
  · intro f hf
    obtain ⟨c, _, rfl⟩ := List.mem_map.mp hf
    rfl
  · intro c hc
    obtain ⟨i, _, rfl⟩ := List.mem_map.mp hc
    simp [List.length_take]
  · intro h120
    rw [hlen, h120]

def tabConst : List (List Chars) → Chars := fun _ => []

def sheet120 : SheetPage :=
  ⟨5, [some "A".data, some "B".data] :: List.replicate 120 [some ['x']]⟩

theorem excel_chunking_witness :
    (sheetData sheet120.sheet).length = 120 ∧
      (perSheetFragments tabConst sheet120).length = 3 :=
  ⟨by decide, (excel_chunking tabConst sheet120).2.2.2.2 (by decide)⟩

/-- C10: a sheet whose rows after the header are all blank produces no
fragment: the data list is empty, so the chunking loop `range(0, 0, 50)` never
runs and no header-only table is emitted. -/
theorem excel_blank_rows_no_output (tab : List (List Chars) → Chars)
    (sp : SheetPage)
    (h : ∀ row ∈ sp.sheet.drop 1, pyStrip (rowToData row).flatten = []) :
    perSheetFragments tab sp = [] := by
  have hdata : sheetData sp.sheet = [] := by
    rw [sheetData]
    apply List.filter_eq_nil_iff.mpr
    intro r hr
    obtain ⟨row, hrow, rfl⟩ := List.mem_map.mp hr
    simp [h row hrow]
  rw [perSheetFragments, perSheetChunks, hdata]
  rfl

def sheetBlank : SheetPage := ⟨2, [[some "A".data], [some [], none]]⟩

theorem excel_blank_rows_no_output_witness :
    (∀ row ∈ sheetBlank.sheet.drop 1, pyStrip (rowToData row).flatten = []) ∧
      perSheetFragments tabConst sheetBlank = [] :=
  ⟨by decide, excel_blank_rows_no_output tabConst sheetBlank (by decide)⟩
